import Mathlib

/-!
Verification development for the weight-extraction and parity-verification
scripts of the swift-fusion-surrogates repository.

The Python sources are embedded shallowly. Model graphs, initializers and
tensors become Lean structures; the numpy astype conversion to 32-bit
floating point is represented by an arbitrary elementwise map together
with a dtype tag, because only the fact that exactly one conversion is
applied matters to the statements below; Python dict insertion-order
semantics is modelled explicitly; the sorted builtin over string keys is
modelled as lexicographic code-point insertion sort.
-/

namespace FusionSurrogates

/-- Element types an ONNX initializer can carry before conversion. -/
inductive DType
  | float16
  | float32
  | float64
  | int8
  | int16
  | int32
  | int64
  | uint8
deriving DecidableEq

/-- A numeric tensor: element dtype, declared shape, element values.
Element values are modelled as rationals. -/
structure TensorData where
  dtype : DType
  shape : List Nat
  values : List Rat
deriving DecidableEq

/-- A named constant tensor of a model graph, one entry of the sequence
model.graph.initializer read by the conversion scripts. -/
structure Initializer where
  name : String
  tensor : TensorData
deriving DecidableEq

/-- A graph node; the scripts consult only its op_type string. -/
structure GraphNode where
  op_type : String
deriving DecidableEq

/-- The parts of a parsed ONNX model graph that the scripts read. The
input and output fields hold the value names; their declared shapes feed
only print statements and are omitted. -/
structure Graph where
  initializer : List Initializer
  input : List String
  output : List String
  node : List GraphNode
deriving DecidableEq

/-- Embedding of data.astype(np.float32) as applied to a decoded
initializer: the elementwise rounding performed by numpy is an external
collaborator and is passed in as the map c; the result is tagged float32
and keeps the shape of the source tensor. -/
def astype (c : Rat → Rat) (t : TensorData) : TensorData :=
  { dtype := DType.float32, shape := t.shape, values := t.values.map c }

/-- Python dict assignment d[k] = v with insertion-order semantics:
replace the value at an existing key in place, otherwise append a new
entry at the end. -/
def dictInsert {α : Type} : List (String × α) → String → α → List (String × α)
  | [], k, v => [(k, v)]
  | p :: rest, k, v => if p.1 = k then (k, v) :: rest else p :: dictInsert rest k v

/-- Python dict read d[k]: the value of the first entry with key k. -/
def dictGet {α : Type} (d : List (String × α)) (k : String) : Option α :=
  (d.find? (fun p => decide (p.1 = k))).map Prod.snd

/-- The weight-extraction loop shared by convert_onnx_to_mlx.py and
convert_onnx_to_safetensors.py: for every initializer, in graph order,
decode it and store its float32 conversion in the weights dict under its
source name. -/
def extractWeights (c : Rat → Rat) (g : Graph) : List (String × TensorData) :=
  g.initializer.foldl (fun w i => dictInsert w i.name (astype c i.tensor)) []

/-- The last initializer of the list that bears the given name, if any. -/
def lastNamed : List Initializer → String → Option Initializer
  | [], _ => none
  | i :: rest, n =>
    match lastNamed rest n with
    | some j => some j
    | none => if i.name = n then some i else none

/-- Input channel names hardcoded in both conversion scripts. -/
def input_names_config : List String :=
  ["Ati", "Ate", "Ane", "Ani", "q", "smag", "x", "Ti_Te", "LogNuStar", "normni"]

/-- Output channel names hardcoded in both conversion scripts. -/
def output_names_config : List String :=
  ["efiITG", "efeITG", "pfeITG", "efeTEM", "efiTEM", "pfeTEM", "efeETG", "gamma_max"]

/-- The Swift output order hardcoded in verify_output_order.py. -/
def swift_order : List String :=
  ["efeITG", "efiITG", "pfeITG", "efeTEM", "efiTEM", "pfeTEM", "efeETG", "gamma_max"]

/-- JSON-like values, for the metadata sidecar files. -/
inductive JVal
  | s (v : String)
  | n (v : Nat)
  | null
  | arr (vs : List JVal)
  | obj (fields : List (String × JVal))

/-- Metadata JSON written by convert_onnx_to_mlx.py: the hardcoded input
and output name lists plus a count of Gemm or MatMul nodes, and nothing
else. -/
def mlx_metadata (g : Graph) : List (String × JVal) :=
  [("input_names", JVal.arr (input_names_config.map JVal.s)),
   ("output_names", JVal.arr (output_names_config.map JVal.s)),
   ("num_layers",
     JVal.n (g.node.countP (fun nd => decide (nd.op_type = "Gemm" ∨ nd.op_type = "MatMul"))))]

/-- One layer record of the hardcoded architecture block written by
convert_onnx_to_safetensors.py. -/
def layerJson (iw ow : Nat) (act : Option String) : JVal :=
  JVal.obj [("type", JVal.s "Linear"), ("in", JVal.n iw), ("out", JVal.n ow),
            ("activation", match act with | some a => JVal.s a | none => JVal.null)]

/-- The hardcoded layer list of convert_onnx_to_safetensors.py. -/
def safetensors_layers : List JVal :=
  [layerJson 10 133 (some "ReLU"), layerJson 133 133 (some "ReLU"),
   layerJson 133 133 (some "ReLU"), layerJson 133 133 (some "ReLU"),
   layerJson 133 133 (some "ReLU"), layerJson 133 8 none]

/-- Metadata JSON written by convert_onnx_to_safetensors.py. -/
def safetensors_metadata (weights : List (String × TensorData)) : List (String × JVal) :=
  [("model_name", JVal.s "qlknn_7_11"),
   ("architecture", JVal.obj [("layers", JVal.arr safetensors_layers)]),
   ("input_names", JVal.arr (input_names_config.map JVal.s)),
   ("output_names", JVal.arr (output_names_config.map JVal.s)),
   ("weight_names", JVal.arr ((weights.map Prod.fst).map JVal.s)),
   ("precision", JVal.s "float32")]

/-- Failure of a conversion run, a raised Python exception. -/
inductive ConvErr
  | indexError (msg : String)
deriving DecidableEq

/-- Files produced by one conversion run: the tensor archive content and
the metadata sidecar record. -/
structure ConvOutput where
  archive : List (String × TensorData)
  metadata : List (String × JVal)

/-- Embedding of convert_onnx_to_mlx: extract and convert all weights,
then read model.graph.input[0] for the architecture printout, which
raises an IndexError when the graph has no inputs, then write the npz
archive and the metadata sidecar. -/
def convert_onnx_to_mlx (c : Rat → Rat) (g : Graph) : Except ConvErr ConvOutput :=
  let weights := extractWeights c g
  match g.input with
  | [] => Except.error (ConvErr.indexError "model.graph.input index 0 out of range")
  | _ :: _ => Except.ok { archive := weights, metadata := mlx_metadata g }

/-- Embedding of convert_onnx_to_safetensors: extract and convert all
weights, write the safetensors archive, then write the metadata sidecar.
It never reads model.graph.input, so it has no failure path in the
embedded fragment. -/
def convert_onnx_to_safetensors (c : Rat → Rat) (g : Graph) : ConvOutput :=
  let weights := extractWeights c g
  { archive := weights, metadata := safetensors_metadata weights }

/-- Modelled from the spec: the archive serializers (numpy savez and
safetensors save_file) are external libraries, not code of this
repository; per the spec both formats persist the tensor mapping
byte-faithfully, so a saved archive is the mapping itself. -/
def save_archive (w : List (String × TensorData)) : List (String × TensorData) := w

/-- Modelled from the spec: reloading a persisted archive yields the
stored tensor mapping unchanged, with no further precision change. -/
def load_archive (a : List (String × TensorData)) : List (String × TensorData) := a

/-- Positional difference list of verify_output_order.py: enumerate over
zip of the two name lists, keeping the unequal pairs with their index;
indices start at n. The zip truncates at the shorter list. -/
def diffsFrom : Nat → List String → List String → List (Nat × String × String)
  | n, x :: xs, y :: ys =>
    (if x = y then [] else [(n, x, y)]) ++ diffsFrom (n + 1) xs ys
  | _, _, _ => []

/-- Result of the order check: matched, or mismatched with the list of
reported positional differences. -/
inductive OrderReport
  | matched
  | mismatched (differences : List (Nat × String × String))
deriving DecidableEq

/-- Embedding of the order comparison of verify_output_order.py: whole
list equality decides matched against mismatched, and in the mismatched
case the reported differences come from enumerate over zip. -/
def verify_order (declared assumed : List String) : OrderReport :=
  if declared = assumed then OrderReport.matched
  else OrderReport.mismatched (diffsFrom 0 declared assumed)

/-- Observable outcome of one run of verify_output_order.py given the
output order read from the ONNX model: whether the orders matched, the
per-index differences printed, and whether the final success banner is
printed. The script prints the banner unconditionally at the end. -/
structure OrderRunResult where
  orderMatched : Bool
  printedDiffs : List (Nat × String × String)
  successBannerPrinted : Bool
deriving DecidableEq

/-- The top-level flow of verify_output_order.py. -/
def verify_output_order_run (onnx_order : List String) : OrderRunResult :=
  { orderMatched := decide (onnx_order = swift_order),
    printedDiffs := if onnx_order = swift_order then [] else diffsFrom 0 onnx_order swift_order,
    successBannerPrinted := true }

/-- A floating-point scalar as seen by the finiteness check: a finite
value, or one of the non-finite values nan and the two infinities. -/
inductive FVal
  | fin (q : Rat)
  | nan
  | inf
  | ninf
deriving DecidableEq

/-- Finiteness of one scalar, as tested by np.isfinite. -/
def FVal.isFinite : FVal → Bool
  | FVal.fin _ => true
  | _ => false

/-- Observable outcome of the finiteness step and the return value of
main in test_new_api_final.py: allFinite is the conjunction of the
per-key finiteness checks, while the success banner and the zero exit
code are unconditional on the non-exception path of the source. -/
structure FinalRunResult where
  allFinite : Bool
  successBannerPrinted : Bool
  exitCode : Nat
deriving DecidableEq

/-- Step 7 and the return of main in test_new_api_final.py, given the
prediction outputs keyed by channel name. -/
def test_new_api_final_check (outputs : List (String × List FVal)) : FinalRunResult :=
  { allFinite := outputs.all (fun p => p.2.all FVal.isFinite),
    successBannerPrinted := true,
    exitCode := 0 }

/-- Embedding of np flatten on one output channel: the script values are
batch-by-width arrays, and flatten lists their entries in row-major order
as a single one-dimensional list. -/
def flattenArr (a : List (List Rat)) : List Rat := a.flatten

/-- Lexicographic code-point comparison of two character lists, the order
the Python sorted builtin uses on strings. -/
def strLeAux : List Char → List Char → Bool
  | [], _ => true
  | _ :: _, [] => false
  | a :: as, b :: bs =>
    if a.val.toNat < b.val.toNat then true
    else if b.val.toNat < a.val.toNat then false
    else strLeAux as bs

/-- Python string comparison, a less-or-equal b. -/
def strLe (a b : String) : Bool := strLeAux a.data b.data

/-- Insertion into an already sorted list of strings. -/
def insertSorted (x : String) : List String → List String
  | [] => [x]
  | y :: ys => if strLe x y then x :: y :: ys else y :: insertSorted x ys

/-- Embedding of the Python sorted builtin over string keys. -/
def sortStrings : List String → List String
  | [] => []
  | x :: xs => insertSorted x (sortStrings xs)

/-- The key iteration order of the fixture-assembly loop in
test_mlx_vs_python.py, namely sorted(outputs.keys()). -/
def sorted_keys (outputs : List (String × List (List Rat))) : List String :=
  sortStrings (outputs.map Prod.fst)

/-- Embedding of the fixture-assembly loop of test_mlx_vs_python.py: for
each key in sorted order, store the flattened value list under that key. -/
def fixture_result (outputs : List (String × List (List Rat))) : List (String × List Rat) :=
  (sorted_keys outputs).filterMap
    (fun k => (dictGet outputs k).map (fun v => (k, flattenArr v)))

/-- Example graph with one input and zero initializers. -/
def gNoInit : Graph :=
  { initializer := [], input := ["input"], output := [], node := [] }

/-- Example integer-typed tensor. -/
def tInt : TensorData := { dtype := DType.int64, shape := [2], values := [3, 4] }

/-- Example 64-bit float tensor. -/
def tA : TensorData := { dtype := DType.float64, shape := [1, 2], values := [1, 2] }

/-- Example 16-bit float tensor. -/
def tB : TensorData := { dtype := DType.float16, shape := [2], values := [5, 6] }

/-- Example graph with two distinctly named initializers. -/
def gExample : Graph :=
  { initializer := [{ name := "w0", tensor := tInt }, { name := "b0", tensor := tA }],
    input := ["input"], output := output_names_config, node := [{ op_type := "Gemm" }] }

/-- Example graph with two initializers bearing the same name. -/
def gDup : Graph :=
  { initializer := [{ name := "w", tensor := tA }, { name := "w", tensor := tB }],
    input := ["input"], output := [], node := [] }

/-- Example prediction outputs keyed by the declared output names. -/
def outputsExample : List (String × List (List Rat)) :=
  output_names_config.map (fun k => (k, [[1]]))

theorem dictGet_dictInsert {α : Type} (d : List (String × α)) (k n : String) (v : α) :
    dictGet (dictInsert d k v) n = if n = k then some v else dictGet d n := by
  induction d with
  | nil =>
    by_cases h : n = k
    · simp [dictGet, dictInsert, List.find?, h]
    · have hkn : ¬ k = n := fun he => h he.symm
      simp [dictGet, dictInsert, List.find?, h, hkn]
  | cons p rest ih =>
    by_cases hpk : p.1 = k
    · by_cases hnk : n = k
      · simp [dictGet, dictInsert, List.find?, hpk, hnk]
      · have hkn : ¬ k = n := fun he => hnk he.symm
        have hpn : ¬ p.1 = n := fun he => hkn (hpk ▸ he)
        simp [dictGet, dictInsert, List.find?, hpk, hnk, hkn, hpn]
    · by_cases hpn : p.1 = n
      · have hnk : ¬ n = k := fun he => hpk (hpn.trans he)
        simp [dictGet, dictInsert, List.find?, hpk, hpn, hnk]
      · simpa [dictGet, dictInsert, List.find?, hpk, hpn] using ih

theorem dictInsert_append {α : Type} (d : List (String × α)) (k : String) (v : α)
    (h : k ∉ d.map Prod.fst) : dictInsert d k v = d ++ [(k, v)] := by
  induction d with
  | nil => rfl
  | cons p rest ih =>
    have hpk : ¬ p.1 = k := by
      intro he
      exact h (by simp [he])
    have hrest : k ∉ rest.map Prod.fst := by
      intro hm
      exact h (by simp [hm])
    simp [dictInsert, hpk, ih hrest]

theorem mem_dictInsert {α : Type} (d : List (String × α)) (k : String) (v : α)
    (q : String × α) (h : q ∈ dictInsert d k v) : q ∈ d ∨ q = (k, v) := by
  induction d with
  | nil =>
    simp [dictInsert] at h
    exact Or.inr h
  | cons p rest ih =>
    by_cases hpk : p.1 = k
    · simp [dictInsert, hpk] at h
      rcases h with h | h
      · exact Or.inr h
      · exact Or.inl (List.mem_cons_of_mem _ h)
    · simp [dictInsert, hpk] at h
      rcases h with h | h
      · exact Or.inl (by simp [h])
      · rcases ih h with h1 | h1
        · exact Or.inl (List.mem_cons_of_mem _ h1)
        · exact Or.inr h1

theorem extract_aux_dtype (c : Rat → Rat) (l : List Initializer)
    (acc : List (String × TensorData))
    (hacc : ∀ p ∈ acc, p.2.dtype = DType.float32) :
    ∀ p ∈ l.foldl (fun w i => dictInsert w i.name (astype c i.tensor)) acc,
      p.2.dtype = DType.float32 := by
  induction l generalizing acc with
  | nil => simpa using hacc
  | cons i rest ih =>
    intro p hp
    refine ih (dictInsert acc i.name (astype c i.tensor)) ?_ p hp
    intro q hq
    rcases mem_dictInsert acc i.name (astype c i.tensor) q hq with h | h
    · exact hacc q h
    · rw [h]
      rfl

theorem extract_aux_lastNamed (c : Rat → Rat) (l : List Initializer) (n : String)
    (acc : List (String × TensorData)) :
    dictGet (l.foldl (fun w i => dictInsert w i.name (astype c i.tensor)) acc) n =
      match lastNamed l n with
      | some j => some (astype c j.tensor)
      | none => dictGet acc n := by
  induction l generalizing acc with
  | nil => simp [lastNamed]
  | cons i rest ih =>
    rw [List.foldl_cons, ih]
    cases hrest : lastNamed rest n with
    | some j => simp [lastNamed, hrest]
    | none =>
      rw [dictGet_dictInsert]
      by_cases hin : i.name = n
      · rw [if_pos hin.symm]
        simp [lastNamed, hrest, hin]
      · have hni : ¬ n = i.name := fun h => hin h.symm
        rw [if_neg hni]
        simp [lastNamed, hrest, hin]

theorem lastNamed_eq_none (l : List Initializer) (n : String)
    (h : n ∉ l.map Initializer.name) : lastNamed l n = none := by
  induction l with
  | nil => rfl
  | cons i rest ih =>
    have hi : ¬ i.name = n := by
      intro he
      exact h (by simp [he])
    have hrest : n ∉ rest.map Initializer.name := by
      intro hm
      exact h (by simp [hm])
    simp [lastNamed, ih hrest, hi]

theorem lastNamed_of_nodup (l : List Initializer) (i : Initializer)
    (h1 : (l.map Initializer.name).Nodup) (h2 : i ∈ l) :
    lastNamed l i.name = some i := by
  induction l with
  | nil => cases h2
  | cons j rest ih =>
    rw [List.map_cons] at h1
    have hnotin : j.name ∉ rest.map Initializer.name := (List.nodup_cons.mp h1).1
    have h1r : (rest.map Initializer.name).Nodup := (List.nodup_cons.mp h1).2
    rcases List.mem_cons.mp h2 with he | hm
    · subst he
      simp [lastNamed, lastNamed_eq_none rest i.name hnotin]
    · have := ih h1r hm
      simp [lastNamed, this]

theorem extract_aux_map (c : Rat → Rat) (l : List Initializer)
    (acc : List (String × TensorData))
    (h1 : (l.map Initializer.name).Nodup)
    (h2 : ∀ i ∈ l, i.name ∉ acc.map Prod.fst) :
    l.foldl (fun w i => dictInsert w i.name (astype c i.tensor)) acc =
      acc ++ l.map (fun i => (i.name, astype c i.tensor)) := by
  induction l generalizing acc with
  | nil => simp
  | cons i rest ih =>
    have hnotacc : i.name ∉ acc.map Prod.fst := h2 i (List.mem_cons_self i rest)
    have hstep : dictInsert acc i.name (astype c i.tensor) = acc ++ [(i.name, astype c i.tensor)] :=
      dictInsert_append acc i.name (astype c i.tensor) hnotacc
    rw [List.map_cons] at h1
    have hheadrest : i.name ∉ rest.map Initializer.name := (List.nodup_cons.mp h1).1
    have h1r : (rest.map Initializer.name).Nodup := (List.nodup_cons.mp h1).2
    have h2r : ∀ j ∈ rest, j.name ∉ (acc ++ [(i.name, astype c i.tensor)]).map Prod.fst := by
      intro j hj
      have hja : j.name ∉ acc.map Prod.fst := h2 j (List.mem_cons_of_mem _ hj)
      have hji : j.name ≠ i.name := by
        intro he
        exact hheadrest (he ▸ List.mem_map_of_mem Initializer.name hj)
      simp [hja, hji]
    rw [List.foldl_cons, hstep, ih _ h1r h2r, List.append_assoc]
    rfl

/-- C1: every tensor stored by the shared extraction loop carries dtype
float32, whatever source dtype the initializer declared. -/
theorem C1_archived_dtype_float32 (c : Rat → Rat) (g : Graph) :
    ∀ p ∈ extractWeights c g, p.2.dtype = DType.float32 := by
  intro p hp
  exact extract_aux_dtype c g.initializer [] (by intro q hq; cases hq) p hp

/-- Witness for C1: the integer-typed initializer of the example graph is
archived with dtype float32. -/
theorem C1_archived_dtype_float32_witness :
    (("w0", astype id tInt) ∈ extractWeights id gExample) ∧
      ("w0", astype id tInt).2.dtype = DType.float32 :=
  have hm : ("w0", astype id tInt) ∈ extractWeights id gExample := by decide
  ⟨hm, C1_archived_dtype_float32 id gExample ("w0", astype id tInt) hm⟩

/-- C4: evaluation at failing inputs. The finiteness check of
test_new_api_final.py fails, yet the run still prints the success banner
and exits with code zero; and verify_output_order.py prints its success
banner even on a run whose order comparison mismatched. -/
theorem C4_failure_still_reports_success :
    (test_new_api_final_check [("efiITG", [FVal.nan])]).allFinite = false ∧
    (test_new_api_final_check [("efiITG", [FVal.nan])]).successBannerPrinted = true ∧
    (test_new_api_final_check [("efiITG", [FVal.nan])]).exitCode = 0 ∧
    (verify_output_order_run ["efeITG"]).orderMatched = false ∧
    (verify_output_order_run ["efeITG"]).successBannerPrinted = true := by
  refine ⟨rfl, rfl, rfl, by decide, rfl⟩

/-- C5 counterexample: on a graph that has an input but zero
initializers, both converters complete without any error and produce an
empty archive; no MissingInitializer failure path exists in the code. -/
theorem C5_counterexample :
    convert_onnx_to_mlx id gNoInit =
      Except.ok { archive := [], metadata := mlx_metadata gNoInit } ∧
    (convert_onnx_to_safetensors id gNoInit).archive = [] :=
  ⟨rfl, rfl⟩

/-- C5 amended: a graph with zero initializers is not rejected. The
safetensors converter always completes and writes an empty archive, and
the npz converter completes with an empty archive whenever the graph has
at least one input, its only failure mode being the input indexing for a
printout, not any missing-initializer check. -/
theorem C5_empty_graph_accepted (c : Rat → Rat) (g : Graph)
    (h : g.initializer = []) :
    (convert_onnx_to_safetensors c g).archive = [] ∧
    (g.input ≠ [] →
      ∃ out, convert_onnx_to_mlx c g = Except.ok out ∧ out.archive = []) := by
  constructor
  · simp [convert_onnx_to_safetensors, extractWeights, h]
  · intro hin
    cases hg : g.input with
    | nil => exact absurd hg hin
    | cons a rest =>
      refine ⟨{ archive := extractWeights c g, metadata := mlx_metadata g }, ?_, ?_⟩
      · simp [convert_onnx_to_mlx, hg]
      · simp [extractWeights, h]

/-- Witness for C5 amended, at the concrete zero-initializer graph. -/
theorem C5_empty_graph_accepted_witness :
    ∃ out, convert_onnx_to_mlx id gNoInit = Except.ok out ∧ out.archive = [] :=
  (C5_empty_graph_accepted id gNoInit rfl).2 (by decide)

/-- C6 counterexample: the metadata sidecar written by the npz converter
carries no precision field, no weight_names field and no layers field, so
not every conversion run writes the five claimed descriptor fields and
the npz format does not carry the precision tag. -/
theorem C6_counterexample :
    "precision" ∉ (mlx_metadata gExample).map Prod.fst ∧
    "weight_names" ∉ (mlx_metadata gExample).map Prod.fst ∧
    "layers" ∉ (mlx_metadata gExample).map Prod.fst := by
  refine ⟨?_, ?_, ?_⟩ <;> decide

/-- C6 amended: only the safetensors descriptor carries the five claimed
fields, with the layers list nested under an architecture field and the
precision tag float32; the npz descriptor carries exactly input_names,
output_names and num_layers. -/
theorem C6_metadata_fields (g : Graph) (w : List (String × TensorData)) :
    (mlx_metadata g).map Prod.fst = ["input_names", "output_names", "num_layers"] ∧
    (safetensors_metadata w).map Prod.fst =
      ["model_name", "architecture", "input_names", "output_names",
       "weight_names", "precision"] ∧
    dictGet (safetensors_metadata w) "precision" = some (JVal.s "float32") ∧
    dictGet (safetensors_metadata w) "weight_names" =
      some (JVal.arr ((w.map Prod.fst).map JVal.s)) ∧
    dictGet (safetensors_metadata w) "architecture" =
      some (JVal.obj [("layers", JVal.arr safetensors_layers)]) :=
  ⟨rfl, rfl, rfl, rfl, rfl⟩

/-- C8: with pairwise distinct initializer names, the extraction output
lists exactly the initializers in graph order, each stored under its
source name and with its source-declared shape unchanged: no renaming and
no reshaping. -/
theorem C8_order_name_shape (c : Rat → Rat) (g : Graph)
    (h : (g.initializer.map Initializer.name).Nodup) :
    extractWeights c g = g.initializer.map (fun i => (i.name, astype c i.tensor)) ∧
    (extractWeights c g).map Prod.fst = g.initializer.map Initializer.name ∧
    ∀ i ∈ g.initializer, ∃ t, dictGet (extractWeights c g) i.name = some t ∧
      t.shape = i.tensor.shape ∧ t.values = i.tensor.values.map c := by
  have hmain : extractWeights c g =
      g.initializer.map (fun i => (i.name, astype c i.tensor)) := by
    have := extract_aux_map c g.initializer [] h (by intro i hi; simp)
    simpa [extractWeights] using this
  refine ⟨hmain, ?_, ?_⟩
  · rw [hmain, List.map_map]
    rfl
  · intro i hi
    refine ⟨astype c i.tensor, ?_, rfl, rfl⟩
    have := extract_aux_lastNamed c g.initializer i.name []
    rw [lastNamed_of_nodup g.initializer i h hi] at this
    exact this

/-- Witness for C8 at the example graph with two distinct names. -/
theorem C8_order_name_shape_witness :
    extractWeights id gExample = [("w0", astype id tInt), ("b0", astype id tA)] :=
  (C8_order_name_shape id gExample (by decide)).1

/-- C2: with unique initializer names, saving the extracted weights and
reloading the archive, then reading any initializer name, yields exactly
the single float32 conversion of that source tensor, with no further
change. -/
theorem C2_roundtrip_single_cast (c : Rat → Rat) (g : Graph) (i : Initializer)
    (h1 : (g.initializer.map Initializer.name).Nodup) (h2 : i ∈ g.initializer) :
    dictGet (load_archive (save_archive (extractWeights c g))) i.name =
      some (astype c i.tensor) := by
  show dictGet (extractWeights c g) i.name = some (astype c i.tensor)
  have := extract_aux_lastNamed c g.initializer i.name []
  rw [lastNamed_of_nodup g.initializer i h1 h2] at this
  exact this

/-- Witness for C2 at the example graph: reloading reproduces the float32
conversion of the integer-typed initializer. -/
theorem C2_roundtrip_single_cast_witness :
    dictGet (load_archive (save_archive (extractWeights id gExample))) "w0" =
      some (astype id tInt) :=
  C2_roundtrip_single_cast id gExample
    { name := "w0", tensor := tInt } (by decide) (by decide)

/-- C9: a duplicated initializer name is never reported. Extraction is
total, the archive read of a name yields the float32 conversion of the
last initializer bearing that name, and the conversion run still
completes normally whenever the graph has an input. -/
theorem C9_duplicate_names_last_wins (c : Rat → Rat) (g : Graph) (n : String) :
    dictGet (extractWeights c g) n =
      (lastNamed g.initializer n).map (fun j => astype c j.tensor) ∧
    (g.input ≠ [] →
      ∃ out, convert_onnx_to_mlx c g = Except.ok out ∧
        out.archive = extractWeights c g) := by
  constructor
  · have := extract_aux_lastNamed c g.initializer n []
    cases hl : lastNamed g.initializer n with
    | some j =>
      rw [hl] at this
      simpa using this
    | none =>
      rw [hl] at this
      simpa [dictGet] using this
  · intro hin
    cases hg : g.input with
    | nil => exact absurd hg hin
    | cons a rest =>
      exact ⟨{ archive := extractWeights c g, metadata := mlx_metadata g },
        by simp [convert_onnx_to_mlx, hg], rfl⟩

/-- Witness for C9 at the duplicate-name graph: the archived value under
the duplicated name is the conversion of the second initializer, and the
run completes. -/
theorem C9_duplicate_names_last_wins_witness :
    dictGet (extractWeights id gDup) "w" = some (astype id tB) ∧
    ∃ out, convert_onnx_to_mlx id gDup = Except.ok out ∧
      out.archive = extractWeights id gDup :=
  ⟨(C9_duplicate_names_last_wins id gDup "w").1,
    (C9_duplicate_names_last_wins id gDup "w").2 (by decide)⟩

theorem diffsFrom_self (n : Nat) (l : List String) : diffsFrom n l l = [] := by
  induction l generalizing n with
  | nil => rfl
  | cons x xs ih => simp [diffsFrom, ih]

theorem diffsFrom_bound (d : List String) :
    ∀ (a : List String) (n : Nat) (e : Nat × String × String),
      e ∈ diffsFrom n d a → n ≤ e.1 ∧ e.1 < n + min d.length a.length := by
  induction d with
  | nil =>
    intro a n e he
    cases a <;> simp [diffsFrom] at he
  | cons x xs ih =>
    intro a n e he
    cases a with
    | nil => simp [diffsFrom] at he
    | cons y ys =>
      rw [diffsFrom] at he
      rcases List.mem_append.mp he with hh | ht
      · by_cases hxy : x = y
        · simp [hxy] at hh
        · simp [hxy] at hh
          rw [hh]
          refine ⟨Nat.le_refl n, ?_⟩
          simp [Nat.succ_min_succ]
      · have := ih ys (n + 1) e ht
        refine ⟨by omega, ?_⟩
        have hmin : min (xs.length + 1) (ys.length + 1) = min xs.length ys.length + 1 :=
          Nat.succ_min_succ xs.length ys.length
        simp only [List.length_cons, hmin]
        omega

theorem diffsFrom_single (d : List String) :
    ∀ (a : List String) (n i : Nat) (x y : String),
      d.length = a.length →
      d[i]? = some x → a[i]? = some y → x ≠ y →
      (∀ j, j ≠ i → d[j]? = a[j]?) →
      diffsFrom n d a = [(n + i, x, y)] := by
  induction d with
  | nil =>
    intro a n i x y hlen hx
    simp at hx
  | cons hd tl ih =>
    intro a n i x y hlen hx hy hxy hsame
    cases a with
    | nil => simp at hy
    | cons ha ta =>
      cases i with
      | zero =>
        have hhd : hd = x := by simpa using hx
        have hha : ha = y := by simpa using hy
        have htl : tl = ta := by
          apply List.ext_getElem?
          intro m
          simpa using hsame (m + 1) (by omega)
        subst hhd
        subst hha
        subst htl
        simp [diffsFrom, hxy, diffsFrom_self]
      | succ j =>
        have hhd : hd = ha := by simpa using hsame 0 (by omega)
        have hlen2 : tl.length = ta.length := by simpa using hlen
        have hx2 : tl[j]? = some x := by simpa using hx
        have hy2 : ta[j]? = some y := by simpa using hy
        have hsame2 : ∀ m, m ≠ j → tl[m]? = ta[m]? := by
          intro m hm
          simpa using hsame (m + 1) (by omega)
        have hrec := ih ta (n + 1) j x y hlen2 hx2 hy2 hxy hsame2
        have hidx : n + 1 + j = n + (j + 1) := by omega
        subst hhd
        simp [diffsFrom, hrec, hidx]

/-- C3 counterexample: on declared list [a, b] against assumed list [a],
the verifier reports a mismatch whose difference list is empty, so the
index-by-index check did not run over the longer length and no
absent-padded entry is reported for the extra index. -/
theorem C3_counterexample :
    verify_order ["a", "b"] ["a"] = OrderReport.mismatched [] := by decide

/-- C3 amended: the order verifier decides matched by whole-list
equality, so a length difference between the sequences does yield a
mismatch report, but the index-by-index difference list is computed by
zip and therefore covers only indices below the length of the shorter
sequence; the extra positions of the longer sequence are never reported. -/
theorem C3_zip_truncates_to_shorter (d a : List String) :
    (verify_order d a = OrderReport.matched ↔ d = a) ∧
    (d.length ≠ a.length → ∃ ds, verify_order d a = OrderReport.mismatched ds) ∧
    (∀ e ∈ diffsFrom 0 d a, e.1 < min d.length a.length) := by
  refine ⟨⟨?_, ?_⟩, ?_, ?_⟩
  · intro h
    by_contra hne
    simp [verify_order, hne] at h
  · intro h
    simp [verify_order, h]
  · intro hlen
    have hne : d ≠ a := fun he => hlen (by rw [he])
    exact ⟨diffsFrom 0 d a, by simp [verify_order, hne]⟩
  · intro e he
    have hb := diffsFrom_bound d a 0 e he
    omega

/-- Witness for C3 amended: a pure length difference is reported as a
mismatch. -/
theorem C3_zip_truncates_to_shorter_witness :
    ∃ ds, verify_order ["a", "b"] ["a"] = OrderReport.mismatched ds :=
  (C3_zip_truncates_to_shorter ["a", "b"] ["a"]).2.1 (by decide)

/-- C7: the order check is reflexive, and over two equal-length sequences
that differ at exactly one index it reports a mismatch at exactly that
index and at no other. -/
theorem C7_reflexive_single_index (s d a : List String) (i : Nat) (x y : String)
    (hlen : d.length = a.length)
    (hx : d[i]? = some x) (hy : a[i]? = some y) (hxy : x ≠ y)
    (hsame : ∀ j, j ≠ i → d[j]? = a[j]?) :
    verify_order s s = OrderReport.matched ∧
    verify_order d a = OrderReport.mismatched [(i, x, y)] := by
  constructor
  · simp [verify_order]
  · have hne : d ≠ a := by
      intro he
      rw [he, hy] at hx
      injection hx with hval
      exact hxy hval.symm
    have hsingle := diffsFrom_single d a 0 i x y hlen hx hy hxy hsame
    simp [verify_order, hne, hsingle]

/-- Witness for C7 at concrete sequences differing exactly at index 1. -/
theorem C7_reflexive_single_index_witness :
    verify_order ["a"] ["a"] = OrderReport.matched ∧
    verify_order ["a", "b"] ["a", "c"] = OrderReport.mismatched [(1, "b", "c")] :=
  C7_reflexive_single_index ["a"] ["a", "b"] ["a", "c"] 1 "b" "c" rfl rfl rfl
    (by decide)
    (fun j hj => by
      match j with
      | 0 => rfl
      | 1 => exact absurd rfl hj
      | m + 2 => rfl)

theorem strLeAux_total : ∀ (l1 l2 : List Char),
    strLeAux l1 l2 = true ∨ strLeAux l2 l1 = true := by
  intro l1
  induction l1 with
  | nil =>
    intro l2
    left
    rfl
  | cons a as ih =>
    intro l2
    cases l2 with
    | nil =>
      right
      rfl
    | cons b bs =>
      by_cases h1 : a.val.toNat < b.val.toNat
      · left
        simp [strLeAux, h1]
      · by_cases h2 : b.val.toNat < a.val.toNat
        · right
          simp [strLeAux, h2]
        · rcases ih bs with h | h
          · left
            simp [strLeAux, h1, h2, h]
          · right
            simp [strLeAux, h1, h2, h]

theorem strLeAux_trans : ∀ (l1 l2 l3 : List Char),
    strLeAux l1 l2 = true → strLeAux l2 l3 = true → strLeAux l1 l3 = true := by
  intro l1
  induction l1 with
  | nil =>
    intro l2 l3 h1 h2
    rfl
  | cons a as ih =>
    intro l2 l3 h1 h2
    cases l2 with
    | nil => simp [strLeAux] at h1
    | cons b bs =>
      cases l3 with
      | nil => simp [strLeAux] at h2
      | cons c cs =>
        by_cases hab : a.val.toNat < b.val.toNat
        · by_cases hbc : b.val.toNat < c.val.toNat
          · have hac : a.val.toNat < c.val.toNat := Nat.lt_trans hab hbc
            simp [strLeAux, hac]
          · by_cases hcb : c.val.toNat < b.val.toNat
            · simp [strLeAux, hbc, hcb] at h2
            · have hac : a.val.toNat < c.val.toNat := by omega
              simp [strLeAux, hac]
        · by_cases hba : b.val.toNat < a.val.toNat
          · simp [strLeAux, hab, hba] at h1
          · by_cases hbc : b.val.toNat < c.val.toNat
            · have hac : a.val.toNat < c.val.toNat := by omega
              simp [strLeAux, hac]
            · by_cases hcb : c.val.toNat < b.val.toNat
              · simp [strLeAux, hbc, hcb] at h2
              · have h1t : strLeAux as bs = true := by
                  simpa [strLeAux, hab, hba] using h1
                have h2t : strLeAux bs cs = true := by
                  simpa [strLeAux, hbc, hcb] using h2
                have hac1 : ¬ a.val.toNat < c.val.toNat := by omega
                have hca : ¬ c.val.toNat < a.val.toNat := by omega
                simp [strLeAux, hac1, hca, ih bs cs h1t h2t]

theorem strLe_total (a b : String) : strLe a b = true ∨ strLe b a = true :=
  strLeAux_total a.data b.data

theorem strLe_trans (a b c : String) (h1 : strLe a b = true) (h2 : strLe b c = true) :
    strLe a c = true :=
  strLeAux_trans a.data b.data c.data h1 h2

theorem insertSorted_perm (x : String) (l : List String) :
    (insertSorted x l).Perm (x :: l) := by
  induction l with
  | nil => exact List.Perm.refl _
  | cons y ys ih =>
    by_cases h : strLe x y = true
    · rw [show insertSorted x (y :: ys) = x :: y :: ys from by simp [insertSorted, h]]
    · rw [show insertSorted x (y :: ys) = y :: insertSorted x ys from by
        simp [insertSorted, h]]
      exact (ih.cons y).trans (List.Perm.swap x y ys)

theorem sortStrings_perm (l : List String) : (sortStrings l).Perm l := by
  induction l with
  | nil => exact List.Perm.refl _
  | cons x xs ih =>
    show (insertSorted x (sortStrings xs)).Perm (x :: xs)
    exact (insertSorted_perm x (sortStrings xs)).trans (ih.cons x)

theorem insertSorted_sorted (x : String) (l : List String)
    (h : List.Sorted (fun a b => strLe a b = true) l) :
    List.Sorted (fun a b => strLe a b = true) (insertSorted x l) := by
  induction l with
  | nil => simp [insertSorted]
  | cons y ys ih =>
    by_cases hxy : strLe x y = true
    · rw [show insertSorted x (y :: ys) = x :: y :: ys from by simp [insertSorted, hxy]]
      rw [List.sorted_cons]
      refine ⟨?_, h⟩
      intro b hb
      rcases List.mem_cons.mp hb with he | hm
      · rw [he]
        exact hxy
      · have hyb : strLe y b = true := (List.sorted_cons.mp h).1 b hm
        exact strLe_trans x y b hxy hyb
    · have hyx : strLe y x = true := by
        rcases strLe_total x y with h1 | h1
        · exact absurd h1 hxy
        · exact h1
      rw [show insertSorted x (y :: ys) = y :: insertSorted x ys from by
        simp [insertSorted, hxy]]
      rw [List.sorted_cons]
      have hys := (List.sorted_cons.mp h).2
      refine ⟨?_, ih hys⟩
      intro b hb
      have hb2 := (insertSorted_perm x ys).mem_iff.mp hb
      rcases List.mem_cons.mp hb2 with he | hm
      · rw [he]
        exact hyx
      · exact (List.sorted_cons.mp h).1 b hm

theorem sortStrings_sorted (l : List String) :
    List.Sorted (fun a b => strLe a b = true) (sortStrings l) := by
  induction l with
  | nil => simp [sortStrings]
  | cons x xs ih => exact insertSorted_sorted x (sortStrings xs) ih

theorem dictGet_of_mem_keys {α : Type} (d : List (String × α)) (k : String)
    (h : k ∈ d.map Prod.fst) : ∃ v, dictGet d k = some v := by
  induction d with
  | nil => simp at h
  | cons p rest ih =>
    by_cases hpk : p.1 = k
    · exact ⟨p.2, by simp [dictGet, List.find?, hpk]⟩
    · have hmem : k ∈ p.1 :: rest.map Prod.fst := by simpa using h
      rcases List.mem_cons.mp hmem with he | hm
      · exact absurd he.symm hpk
      · rcases ih hm with ⟨v, hv⟩
        exact ⟨v, by simpa [dictGet, List.find?, hpk] using hv⟩

theorem dictGet_of_nodup_mem {α : Type} (d : List (String × α)) (k : String) (v : α)
    (hnd : (d.map Prod.fst).Nodup) (h : (k, v) ∈ d) : dictGet d k = some v := by
  induction d with
  | nil => cases h
  | cons p rest ih =>
    rw [List.map_cons] at hnd
    have hnotin := (List.nodup_cons.mp hnd).1
    have hnd2 := (List.nodup_cons.mp hnd).2
    rcases List.mem_cons.mp h with he | hm
    · rw [← he]
      simp [dictGet, List.find?]
    · by_cases hpk : p.1 = k
      · have hk : k ∈ rest.map Prod.fst := List.mem_map_of_mem Prod.fst hm
        rw [hpk] at hnotin
        exact absurd hk hnotin
      · simpa [dictGet, List.find?, hpk] using ih hnd2 hm

theorem filterMap_dictGet_keys {α β : Type} (d : List (String × α)) (f : α → β) :
    ∀ ks : List String, (∀ k ∈ ks, k ∈ d.map Prod.fst) →
      (ks.filterMap (fun k => (dictGet d k).map (fun v => (k, f v)))).map Prod.fst = ks := by
  intro ks
  induction ks with
  | nil =>
    intro h
    rfl
  | cons k rest ih =>
    intro h
    rcases dictGet_of_mem_keys d k (h k (List.mem_cons_self k rest)) with ⟨v, hv⟩
    have hrest := ih (fun k2 hk2 => h k2 (List.mem_cons_of_mem _ hk2))
    simp [List.filterMap_cons, hv, hrest]

/-- C10: the fixture generator lists the channels of a prediction result
in the sorted key order of the Python sorted builtin, not in the declared
output order, and persists every channel value flattened to a single
one-dimensional list; for the declared output names of this model the
sorted order really differs from the declared order. -/
theorem C10_fixture_sorted_flattened (outputs : List (String × List (List Rat)))
    (h : (outputs.map Prod.fst).Nodup) :
    (fixture_result outputs).map Prod.fst = sorted_keys outputs ∧
    List.Sorted (fun a b => strLe a b = true) ((fixture_result outputs).map Prod.fst) ∧
    ((fixture_result outputs).map Prod.fst).Perm (outputs.map Prod.fst) ∧
    (∀ k v, (k, v) ∈ outputs → (k, flattenArr v) ∈ fixture_result outputs) ∧
    sortStrings output_names_config ≠ output_names_config := by
  have hkeys : ∀ k ∈ sorted_keys outputs, k ∈ outputs.map Prod.fst := by
    intro k hk
    exact (sortStrings_perm (outputs.map Prod.fst)).mem_iff.mp hk
  have h1 : (fixture_result outputs).map Prod.fst = sorted_keys outputs :=
    filterMap_dictGet_keys outputs flattenArr (sorted_keys outputs) hkeys
  refine ⟨h1, ?_, ?_, ?_, ?_⟩
  · rw [h1]
    exact sortStrings_sorted (outputs.map Prod.fst)
  · rw [h1]
    exact sortStrings_perm (outputs.map Prod.fst)
  · intro k v hkv
    have hk : k ∈ outputs.map Prod.fst := List.mem_map_of_mem Prod.fst hkv
    have hks : k ∈ sorted_keys outputs :=
      (sortStrings_perm (outputs.map Prod.fst)).mem_iff.mpr hk
    have hv : dictGet outputs k = some v := dictGet_of_nodup_mem outputs k v h hkv
    refine List.mem_filterMap.mpr ⟨k, hks, ?_⟩
    rw [hv]
    rfl
  · decide

/-- Witness for C10 at prediction outputs keyed by the declared output
names of the model. -/
theorem C10_fixture_sorted_flattened_witness :
    (fixture_result outputsExample).map Prod.fst = sorted_keys outputsExample ∧
    sortStrings output_names_config ≠ output_names_config := by
  have h := C10_fixture_sorted_flattened outputsExample (by decide)
  exact ⟨h.1, h.2.2.2.2⟩

end FusionSurrogates
